import Mathlib

/-!
Shallow embedding of the Vectro+ search and compression core.

The Rust sources embedded here are `vectro_lib/src/lib.rs` (similarity
kernels, `SearchIndex`, scalar quantization, `QuantizedIndex`, the
dataset loader) and `vectro_cli/src/lib.rs` (`compress_stream`: line
parsing, the STREAM byte format, the writer thread).

Modelling conventions:
* `f32` values are modelled by an arbitrary `LinearOrderedField` (the
  theorems are stated generically and instantiated at `ℚ` in concrete
  witnesses, so every definition is computable and evaluable by `decide`).
* The square-root function of `f32` is passed as an explicit parameter
  `sqrt : α → α`; no theorem below needs any property of it beyond the
  hypotheses stated, and in concrete computations it is instantiated by a
  function that agrees with the true square root on every value that
  actually occurs (`0` and `1`).
* Rust panics (out-of-bounds indexing) are modelled by `Option`: a
  function returns `none` exactly when the source panics.
* Bytes on disk are modelled as `ℕ` values below 256; `u32`/`u64`
  little-endian encodings are spelled out digit by digit.
* Rayon's `par_sort_by` with comparator `b.1.partial_cmp(&a.1)
  .unwrap_or(Equal)` is a stable sort by descending score (no NaNs arise
  in the model); the stable sort by a total boolean relation is unique as
  a function, so it is modelled by a stable insertion sort.
-/

namespace Vectro

variable {α : Type} [LinearOrderedField α]

/-- An identified vector, `vectro_lib::Embedding`. -/
structure Embedding (α : Type) where
  id : String
  vector : List α
deriving DecidableEq

/-- Sum of element-wise products, `search::dot`. The Rust source zips the
two slices, so trailing elements of the longer slice are dropped. -/
def dot (a b : List α) : α :=
  (List.zipWith (· * ·) a b).sum

/-- Sum of squares of a vector; `search::norm` is `sqrt` of this value. -/
def sumsq (a : List α) : α :=
  (a.map (fun x => x * x)).sum

/-- L2 norm, `search::norm`, with the square root abstracted. -/
def norm (sqrt : α → α) (a : List α) : α :=
  sqrt (sumsq a)

/-- Stable insertion of `x` into `l`: `x` goes in front of the first
element `y` with `le x y = true`. -/
def insertBy (le : β → β → Bool) (x : β) : List β → List β
  | [] => [x]
  | y :: ys => if le x y then x :: y :: ys else y :: insertBy le x ys

/-- Stable sort by the boolean relation `le`; models rayon's stable
`par_sort_by`. -/
def insertSortBy (le : β → β → Bool) : List β → List β
  | [] => []
  | x :: xs => insertBy le x (insertSortBy le xs)

/-- Sort `(id, score)` pairs by descending score, ties keeping input
order: the comparator `b.1.partial_cmp(&a.1).unwrap_or(Equal)` of the
source. -/
def sortScores (scores : List (String × α)) : List (String × α) :=
  insertSortBy (fun a b => decide (b.2 ≤ a.2)) scores

/-- The float index, `search::SearchIndex`: ids, normalized rows, and
the dimension of the first record. -/
structure SearchIndex (α : Type) where
  ids : List String
  normalized : List (List α)
  dim : ℕ
deriving DecidableEq

/-- The `dim` computed by the build loop of `SearchIndex::from_dataset`:
`if dim == 0 { dim = e.vector.len(); }` folded over the records. -/
def firstDim (dataset : List (Embedding α)) : ℕ :=
  dataset.foldl (fun d e => if d = 0 then e.vector.length else d) 0

/-- `SearchIndex::from_dataset`: clone ids and store L2-normalized rows,
a zero-norm vector becoming an all-zero row of its own length. -/
def SearchIndex.from_dataset (sqrt : α → α) (dataset : List (Embedding α)) :
    SearchIndex α :=
  { ids := dataset.map (fun e => e.id)
  , normalized := dataset.map (fun e =>
      let n := norm sqrt e.vector
      if n = 0 then List.replicate e.vector.length 0
      else e.vector.map (fun v => v / n))
  , dim := firstDim dataset }

/-- The per-row scoring step of `SearchIndex::top_k`: dot each stored
normalized row against the normalized query. -/
def SearchIndex.raw_scores (idx : SearchIndex α) (qnormed : List α) :
    List (String × α) :=
  List.zipWith (fun vec id => (id, dot vec qnormed)) idx.normalized idx.ids

/-- `SearchIndex::top_k`: guard on dimension and zero query norm, then
score, sort descending and truncate to `k`. -/
def SearchIndex.top_k (sqrt : α → α) (idx : SearchIndex α)
    (query : List α) (k : ℕ) : List (String × α) :=
  if query.length ≠ idx.dim then []
  else
    let qnorm := norm sqrt query
    if qnorm = 0 then []
    else
      let q := query.map (fun v => v / qnorm)
      (sortScores (idx.raw_scores q)).take k

/-- Per-dimension quantization table, `search::quant::QuantTable`. -/
structure QuantTable (α : Type) where
  min : α
  max : α
deriving DecidableEq

/-- Rust `f32::clamp(lo, hi)`. -/
def clamp (x lo hi : α) : α :=
  if x < lo then lo else if x > hi then hi else x

variable [FloorRing α]

/-- `QuantTable::quantize`: degenerate table maps to 0, otherwise the
position in `[min, max]` is clamped to `[0, 1]`, scaled by 255 and
rounded (rounding of a nonnegative argument is half-up, as in Rust). -/
def QuantTable.quantize (t : QuantTable α) (v : α) : ℕ :=
  if t.max ≤ t.min then 0
  else (round (clamp ((v - t.min) / (t.max - t.min)) 0 1 * 255)).toNat

/-- `QuantTable::dequantize`: degenerate table maps back to `min`. -/
def QuantTable.dequantize (t : QuantTable α) (q : ℕ) : α :=
  if t.max ≤ t.min then t.min
  else t.min + (q : α) / 255 * (t.max - t.min)

/-- One update of the running minimum `if *x < mins[i] { mins[i] = *x }`;
`none` plays the role of the initial `f32::INFINITY`. -/
def updMin : Option α → α → Option α
  | none, x => some x
  | some m, x => if x < m then some x else some m

/-- One update of the running maximum `if *x > maxs[i] { maxs[i] = *x }`;
`none` plays the role of the initial `f32::NEG_INFINITY`. -/
def updMax : Option α → α → Option α
  | none, x => some x
  | some m, x => if m < x then some x else some m

/-- Apply an extremum update at each position of one input row. -/
def updRow (f : Option α → α → Option α) :
    List (Option α) → List α → List (Option α)
  | ms, [] => ms
  | [], _ :: _ => []
  | m :: ms, x :: xs => f m x :: updRow f ms xs

/-- The extrema pass of `quantize_dataset`: fold every row into the
running `mins`/`maxs`. A row longer than `dim` indexes `mins`/`maxs`
out of bounds in the source, which panics: modelled by `none`. -/
def scanRows (dim : ℕ) :
    List (Option α) × List (Option α) → List (List α) →
    Option (List (Option α) × List (Option α))
  | st, [] => some st
  | st, v :: rest =>
    if v.length ≤ dim then
      scanRows dim (updRow updMin st.1 v, updRow updMax st.2 v) rest
    else none

/-- Quantize one row through `tables`, index by index:
`v.iter().enumerate().map(|(i, x)| tables[i].quantize(*x))`. An index
beyond `tables` panics in the source: modelled by `none`. -/
def qrowAux (tables : List (QuantTable α)) : ℕ → List α → Option (List ℕ)
  | _, [] => some []
  | i, x :: xs =>
    match tables.get? i with
    | none => none
    | some t => (qrowAux tables (i + 1) xs).map (fun r => t.quantize x :: r)

/-- Quantize one row through `tables` starting at index 0. -/
def qrow (tables : List (QuantTable α)) (v : List α) : Option (List ℕ) :=
  qrowAux tables 0 v

/-- Quantize every row: the `vectors.iter().map(...).collect()` of the
source, propagating the panic of any row. -/
def rowsQuantized (tables : List (QuantTable α)) : List (List α) → Option (List (List ℕ))
  | [] => some []
  | v :: rest =>
    match qrow tables v, rowsQuantized tables rest with
    | some q, some qs => some (q :: qs)
    | _, _ => none

/-- `search::quant::quantize_dataset`: empty input gives the empty pair;
otherwise one extrema pass over all rows builds a table per dimension of
the first row, and every row is quantized through the tables. `none`
models the out-of-bounds panics of the source. -/
def quantize_dataset : List (List α) → Option (List (QuantTable α) × List (List ℕ))
  | [] => some ([], [])
  | v0 :: rest =>
    let dim := v0.length
    (scanRows dim (List.replicate dim none, List.replicate dim none) (v0 :: rest)).bind
      (fun st =>
        let tables := List.zipWith
          (fun m M => QuantTable.mk (Option.getD m 0) (Option.getD M 0)) st.1 st.2
        (rowsQuantized tables (v0 :: rest)).map (fun qvecs => (tables, qvecs)))

/-- The quantized index, `search::QuantizedIndex`. -/
structure QuantizedIndex (α : Type) where
  ids : List String
  tables : List (QuantTable α)
  qvecs : List (List ℕ)
  dim : ℕ
  normalized_cache : Option (List (List α))
deriving DecidableEq

/-- `QuantizedIndex::from_dataset`: quantize all vectors, set `dim` to
the number of tables, leave the cache empty. `none` models a panic in
`quantize_dataset`. -/
def QuantizedIndex.from_dataset (dataset : List (Embedding α)) :
    Option (QuantizedIndex α) :=
  (quantize_dataset (dataset.map (fun e => e.vector))).map
    (fun p => { ids := dataset.map (fun e => e.id)
              , tables := p.1
              , qvecs := p.2
              , dim := p.1.length
              , normalized_cache := none })

/-- `QuantizedIndex::dequantize_vec`: `tables[i].dequantize(b)` per
element. Every index is in bounds whenever the index was built by
`from_dataset` (otherwise the source would already have panicked), so
the default table is never consulted there. -/
def QuantizedIndex.dequantize_vec (idx : QuantizedIndex α) (q : List ℕ) :
    List α :=
  q.enum.map (fun p => (idx.tables.getD p.1 (QuantTable.mk 0 0)).dequantize p.2)

/-- The per-row scoring step of `QuantizedIndex::top_k`: the cached path
dots each cached row with the normalized query; the on-the-fly path
dequantizes, scoring `-1` when the dequantized row has zero norm and
`dot(v, q) / norm(v)` otherwise. -/
def QuantizedIndex.raw_scores (sqrt : α → α) (idx : QuantizedIndex α)
    (qnormed : List α) : List (String × α) :=
  match idx.normalized_cache with
  | some cache => List.zipWith (fun v id => (id, dot v qnormed)) cache idx.ids
  | none => List.zipWith (fun qv id =>
      let v := idx.dequantize_vec qv
      let n := norm sqrt v
      (id, if n = 0 then -1 else dot v qnormed / n)) idx.qvecs idx.ids

/-- `QuantizedIndex::top_k`: the same guards as the float index, then
score (cached or on-the-fly), sort descending and truncate to `k`. -/
def QuantizedIndex.top_k (sqrt : α → α) (idx : QuantizedIndex α)
    (query : List α) (k : ℕ) : List (String × α) :=
  if query.length ≠ idx.dim then []
  else
    let qnorm := norm sqrt query
    if qnorm = 0 then []
    else
      let qnormed := query.map (fun v => v / qnorm)
      (sortScores (idx.raw_scores sqrt qnormed)).take k

/-- `QuantizedIndex::precompute_normalized`: cache the L2-normalized
dequantized rows, a zero-norm row becoming all zeros. -/
def QuantizedIndex.precompute_normalized (sqrt : α → α)
    (idx : QuantizedIndex α) : QuantizedIndex α :=
  { idx with normalized_cache := some (idx.qvecs.map (fun qv =>
      let v := idx.dequantize_vec qv
      let n := norm sqrt v
      if n = 0 then v.map (fun _ => 0) else v.map (fun x => x / n))) }

/-! ### Byte-level model of the STREAM container, the writer thread and
`EmbeddingDataset::load` (from `vectro_cli/src/lib.rs` and
`vectro_lib/src/lib.rs`). Bytes are naturals below 256; `f32` vector
components travel as 32-bit patterns, which is exactly how bincode
copies them. -/

/-- Little-endian u32 bytes. -/
def u32le (n : ℕ) : List ℕ :=
  [n % 256, n / 256 % 256, n / 256 ^ 2 % 256, n / 256 ^ 3 % 256]

/-- Little-endian u64 bytes. -/
def u64le (n : ℕ) : List ℕ :=
  [n % 256, n / 256 % 256, n / 256 ^ 2 % 256, n / 256 ^ 3 % 256,
   n / 256 ^ 4 % 256, n / 256 ^ 5 % 256, n / 256 ^ 6 % 256, n / 256 ^ 7 % 256]

/-- Value of a little-endian byte string. -/
def leVal (bs : List ℕ) : ℕ :=
  bs.foldr (fun b acc => b + 256 * acc) 0

/-- The bytes of the magic string `"VECTRO+STREAM1\n"` written by the
non-quantized writer thread. -/
def streamMagic : List ℕ :=
  [86, 69, 67, 84, 82, 79, 43, 83, 84, 82, 69, 65, 77, 49, 10]

/-- A record at the wire level: UTF-8 id bytes and one 32-bit pattern
per `f32` vector component. -/
structure BinRecord where
  id : List ℕ
  bits : List ℕ
deriving DecidableEq

/-- bincode 1.x (default options) encoding of `Embedding { id, vector }`:
u64 LE byte length of the id, the id bytes, u64 LE element count of the
vector, then each component as 4 LE bytes. -/
def bincodeEmbedding (r : BinRecord) : List ℕ :=
  u64le r.id.length ++ r.id ++ u64le r.bits.length ++ r.bits.flatMap u32le

/-- One length-prefixed frame as emitted by the writer thread:
u32 LE payload length, then the payload. -/
def frameBytes (payload : List ℕ) : List ℕ :=
  u32le payload.length ++ payload

/-- The bytes `compress_stream(_, _, quantize = false)` leaves on disk:
the STREAM magic followed by one frame per parsed record. Workers race,
so the records appear on disk in an unspecified permutation of input
order; the model takes the records in the order given, which is general
because the theorems below quantify over (or enumerate) the orders. -/
def compress_stream_bytes (recs : List BinRecord) : List ℕ :=
  streamMagic ++ recs.flatMap (fun r => frameBytes (bincodeEmbedding r))

/-- Read a u64 LE, failing on a short buffer. -/
def readU64 (b : List ℕ) : Option (ℕ × List ℕ) :=
  if 8 ≤ b.length then some (leVal (b.take 8), b.drop 8) else none

/-- Read `n` raw bytes, failing on a short buffer. -/
def readBytes (n : ℕ) (b : List ℕ) : Option (List ℕ × List ℕ) :=
  if n ≤ b.length then some (b.take n, b.drop n) else none

/-- Group a byte string into 32-bit LE patterns. -/
def chunk4 : List ℕ → List ℕ
  | b0 :: b1 :: b2 :: b3 :: rest =>
    (b0 + 256 * b1 + 256 ^ 2 * b2 + 256 ^ 3 * b3) :: chunk4 rest
  | _ => []

/-- bincode decoding of one `Embedding`: id length, id bytes, vector
length, 4 bytes per component. -/
def readEmbedding (b : List ℕ) : Option (BinRecord × List ℕ) := do
  let (idLen, b1) ← readU64 b
  let (idBytes, b2) ← readBytes idLen b1
  let (vecLen, b3) ← readU64 b2
  let (vecBytes, b4) ← readBytes (4 * vecLen) b3
  pure (⟨idBytes, chunk4 vecBytes⟩, b4)

/-- bincode decoding of `count` consecutive embeddings. -/
def readEmbeddings : ℕ → List ℕ → Option (List BinRecord)
  | 0, _ => some []
  | n + 1, b => do
    let (r, b1) ← readEmbedding b
    let rs ← readEmbeddings n b1
    pure (r :: rs)

/-- `EmbeddingDataset::load`: the whole file is deserialized as one
bincode `EmbeddingDataset { embeddings: Vec<Embedding> }` — a u64 LE
element count followed by the embeddings. The source performs no
magic-string detection whatsoever. (The model is more permissive than
the source: it skips the UTF-8 validation of ids, so whenever the model
rejects a buffer the source rejects it too.) -/
def load (buf : List ℕ) : Option (List BinRecord) := do
  let (count, b) ← readU64 buf
  readEmbeddings count b

/-- The writer thread loop of `compress_stream` (non-quantized path)
after the magic has been written: for each received buffer write the
u32 LE length, then the payload, then finally flush. `writeOk i`
tells whether the i-th write syscall succeeds; on the first failure the
`?` operator aborts the thread, so nothing further is appended.
Returns (bytes persisted, frames fully written, success). -/
def writerLoop (writeOk : ℕ → Bool) :
    ℕ → List ℕ → ℕ → List (List ℕ) → List ℕ × ℕ × Bool
  | op, persisted, written, [] => (persisted, written, writeOk op)
  | op, persisted, written, f :: rest =>
    if writeOk op then
      let p1 := persisted ++ u32le f.length
      if writeOk (op + 1) then
        writerLoop writeOk (op + 2) (p1 ++ f) (written + 1) rest
      else (p1, written, false)
    else (persisted, written, false)

/-- The whole writer thread: write the STREAM magic (syscall 0), then
loop over the received frames. -/
def writer_thread (writeOk : ℕ → Bool) (frames : List (List ℕ)) :
    List ℕ × ℕ × Bool :=
  if writeOk 0 then writerLoop writeOk 1 streamMagic 0 frames
  else ([], 0, false)

/-- The tail of `compress_stream`: the source runs
`for h in worker_handles { let _ = h.join(); }` and
`if let Some(h) = writer_handle_opt { let _ = h.join(); }` and then
returns `Ok(parsed)` — the writer thread's result (success or I/O
error) is discarded, so the parsed count is returned unconditionally. -/
def compress_finish (_writerOk : Bool) (parsed : ℕ) : Except String ℕ :=
  Except.ok parsed

/-! ### Model of the line parser of `compress_stream`
(`vectro_cli/src/lib.rs`, the reader loop). Lines are lists of
characters; JSON parsing (`serde_json::from_str` followed by the
`id`/`vector` shape checks) is modelled by a small recursive-descent
parser producing exact rational numbers. -/

/-- ASCII whitespace as trimmed by `str::trim` and skipped by the JSON
grammar (the full Unicode whitespace of Rust's `trim` is not needed for
the inputs considered). -/
def isWs (c : Char) : Bool :=
  c = ' ' ∨ c = '\t' ∨ c = '\n' ∨ c = '\r'

/-- `str::trim`. -/
def trimChars (l : List Char) : List Char :=
  ((l.dropWhile isWs).reverse.dropWhile isWs).reverse

/-- `str::split(',')`: splits on every comma, keeping empty fields. -/
def splitComma : List Char → List (List Char)
  | [] => [[]]
  | c :: rest =>
    if c = ',' then [] :: splitComma rest
    else
      match splitComma rest with
      | [] => [[c]]
      | p :: ps => (c :: p) :: ps

/-- Decimal digit value. -/
def digitVal (c : Char) : Option ℕ :=
  if '0' ≤ c ∧ c ≤ '9' then some (c.toNat - '0'.toNat) else none

/-- Consume a maximal digit run, returning its value, its length and the
rest. -/
def digitsVal : List Char → ℕ → ℕ → ℕ × ℕ × List Char
  | [], acc, cnt => (acc, cnt, [])
  | c :: rest, acc, cnt =>
    match digitVal c with
    | some d => digitsVal rest (10 * acc + d) (cnt + 1)
    | none => (acc, cnt, c :: rest)

/-- Optional exponent part `e[+-]?digits`; absent means exponent 0,
present but without digits is a parse failure. -/
def parseExp : List Char → Option (ℤ × List Char)
  | [] => some (0, [])
  | c :: r =>
    if c = 'e' ∨ c = 'E' then
      let (es, r1) : ℤ × List Char :=
        match r with
        | '-' :: r2 => (-1, r2)
        | '+' :: r2 => (1, r2)
        | _ => (1, r)
      let (ev, ecnt, r2) := digitsVal r1 0 0
      if ecnt = 0 then none else some (es * (ev : ℤ), r2)
    else some (0, c :: r)

/-- Rust `str::parse::<f32>` on a numeric literal
`sign? digits* (. digits*)? exp?` with at least one digit, consuming the
whole input; the value is modelled exactly in `ℚ` (the special forms
`inf`/`NaN` are not modelled). -/
def parse_f32 (l : List Char) : Option ℚ :=
  let (sgn, l1) : ℚ × List Char :=
    match l with
    | '-' :: r => (-1, r)
    | '+' :: r => (1, r)
    | _ => (1, l)
  let (ip, icnt, l2) := digitsVal l1 0 0
  let (fp, fcnt, l3) :=
    match l2 with
    | '.' :: r => digitsVal r 0 0
    | _ => (0, 0, l2)
  if icnt + fcnt = 0 then none
  else
    match parseExp l3 with
    | none => none
    | some (ex, l4) =>
      if l4 = [] then some (sgn * ((ip : ℚ) + (fp : ℚ) / 10 ^ fcnt) * 10 ^ ex)
      else none

/-- JSON values as produced by `serde_json::from_str::<Value>`, with
numbers modelled exactly. -/
inductive Json where
  | null
  | bool (b : Bool)
  | num (v : ℚ)
  | str (s : List Char)
  | arr (elems : List Json)
  | obj (fields : List (List Char × Json))

/-- Characters that can occur in a numeric literal. -/
def isNumChar (c : Char) : Bool :=
  ('0' ≤ c ∧ c ≤ '9') ∨ c = '-' ∨ c = '+' ∨ c = '.' ∨ c = 'e' ∨ c = 'E'

/-- Minimal escape handling inside JSON strings (enough for the inputs
considered; `\uXXXX` escapes are not decoded). -/
def unescape (c : Char) : Char :=
  if c = 'n' then '\n' else if c = 't' then '\t' else if c = 'r' then '\r' else c

/-- Parse the remainder of a JSON string after the opening quote. -/
def parseJsonStr : List Char → Option (List Char × List Char)
  | [] => none
  | c :: rest =>
    if c = '"' then some ([], rest)
    else if c = '\\' then
      match rest with
      | [] => none
      | e :: rest2 => (parseJsonStr rest2).map (fun p => (unescape e :: p.1, p.2))
    else (parseJsonStr rest).map (fun p => (c :: p.1, p.2))

mutual

/-- Recursive-descent JSON value, fuel-bounded. -/
def parseValue : ℕ → List Char → Option (Json × List Char)
  | 0, _ => none
  | fuel + 1, l =>
    match List.dropWhile isWs l with
    | [] => none
    | 'n' :: 'u' :: 'l' :: 'l' :: rest => some (Json.null, rest)
    | 't' :: 'r' :: 'u' :: 'e' :: rest => some (Json.bool true, rest)
    | 'f' :: 'a' :: 'l' :: 's' :: 'e' :: rest => some (Json.bool false, rest)
    | c :: rest =>
      if c = '"' then (parseJsonStr rest).map (fun p => (Json.str p.1, p.2))
      else if c = '[' then
        match List.dropWhile isWs rest with
        | ']' :: rest2 => some (Json.arr [], rest2)
        | l2 => (parseArrItems fuel l2).map (fun p => (Json.arr p.1, p.2))
      else if c = Char.ofNat 123 then
        match List.dropWhile isWs rest with
        | d :: rest2 =>
          if d = Char.ofNat 125 then some (Json.obj [], rest2)
          else (parseObjItems fuel (d :: rest2)).map (fun p => (Json.obj p.1, p.2))
        | [] => none
      else if isNumChar c then
        match parse_f32 ((c :: rest).takeWhile isNumChar) with
        | some q => some (Json.num q, (c :: rest).dropWhile isNumChar)
        | none => none
      else none

/-- Comma-separated array items up to the closing bracket. -/
def parseArrItems : ℕ → List Char → Option (List Json × List Char)
  | 0, _ => none
  | fuel + 1, l => do
    let (v, r) ← parseValue fuel l
    match List.dropWhile isWs r with
    | ',' :: r2 => (parseArrItems fuel r2).map (fun p => (v :: p.1, p.2))
    | ']' :: r2 => some ([v], r2)
    | _ => none

/-- Comma-separated `"key": value` object fields up to the closing
brace. -/
def parseObjItems : ℕ → List Char → Option (List (List Char × Json) × List Char)
  | 0, _ => none
  | fuel + 1, l =>
    match List.dropWhile isWs l with
    | '"' :: r => do
      let (key, r1) ← parseJsonStr r
      match List.dropWhile isWs r1 with
      | ':' :: r2 => do
        let (v, r3) ← parseValue fuel r2
        match List.dropWhile isWs r3 with
        | ',' :: r4 => (parseObjItems fuel r4).map (fun p => ((key, v) :: p.1, p.2))
        | d :: r4 =>
          if d = Char.ofNat 125 then some ([(key, v)], r4) else none
        | [] => none
      | _ => none
    | _ => none

end

/-- `serde_json::from_str::<Value>`: parse one value, requiring the rest
of the line to be whitespace. -/
def from_str (l : List Char) : Option Json :=
  match parseValue (l.length + 1) l with
  | some (v, rest) => if List.dropWhile isWs rest = [] then some v else none
  | none => none

/-- `Value::get(key)`: field lookup on objects only; with duplicate keys
the last occurrence wins, as in serde_json's map. -/
def jsonGet (v : Json) (key : List Char) : Option Json :=
  match v with
  | Json.obj fields => ((fields.filter (fun f => f.1 = key)).getLast?).map (fun f => f.2)
  | _ => none

/-- `Value::as_str`. -/
def asStr : Json → Option (List Char)
  | Json.str s => some s
  | _ => none

/-- `Value::as_array`. -/
def asArr : Json → Option (List Json)
  | Json.arr xs => some xs
  | _ => none

/-- `Number::as_f64` as used by `x.as_f64()` on array elements: numbers
succeed, everything else is dropped. -/
def asF64 : Json → Option ℚ
  | Json.num v => some v
  | _ => none

/-- One iteration of the reader loop of `compress_stream`: trim the
line, skip it if blank, try JSON (`id` string field and `vector` array
field, keeping the numeric elements), otherwise fall back to CSV (first
field the id, remaining fields kept when they parse as `f32`). Returns
the record pushed and counted in `parsed`, or `none` when the line is
skipped. -/
def processLine (line : List Char) : Option (Embedding ℚ) :=
  let t := trimChars line
  if t = [] then none
  else
    let jsonTry : Option (Embedding ℚ) :=
      (from_str t).bind (fun v =>
        ((jsonGet v ['i', 'd']).bind asStr).bind (fun idChars =>
          ((jsonGet v ['v', 'e', 'c', 't', 'o', 'r']).bind asArr).map (fun arr =>
            ⟨String.mk idChars, arr.filterMap asF64⟩)))
    match jsonTry with
    | some e => some e
    | none =>
      let parts := splitComma t
      if 2 ≤ parts.length then
        some ⟨String.mk (parts.headD []), parts.tail.filterMap (fun p => parse_f32 (trimChars p))⟩
      else none

/-- The square-root function used for concrete computations at `ℚ`. It
agrees with the true square root on `0` and `1`, the only values it is
applied to in the concrete inputs below; all general theorems take the
square root as an arbitrary parameter. -/
def modelSqrt (x : ℚ) : ℚ :=
  if x = 1 then 1 else 0

/-- Concatenation of length-prefixed frames, the record region of a
STREAM file. -/
def framesConcat (fs : List (List ℕ)) : List ℕ :=
  fs.flatMap frameBytes

/-- The shape check of the JSON branch of `compress_stream`: the line
parses as JSON and carries a string `id` field and an array `vector`
field. -/
def jsonShapeOk (t : List Char) : Bool :=
  match from_str t with
  | some v =>
    ((jsonGet v ['i', 'd']).bind asStr).isSome
      && ((jsonGet v ['v', 'e', 'c', 't', 'o', 'r']).bind asArr).isSome
  | none => false

end Vectro

namespace Vectro

/-! ### Helper lemmas -/

theorem length_insertBy {β : Type} (le : β → β → Bool) (x : β) (l : List β) :
    (insertBy le x l).length = l.length + 1 := by
  induction l with
  | nil => rfl
  | cons y ys ih =>
    by_cases h : le x y = true
    · simp [insertBy, h]
    · simp [insertBy, h, ih]

theorem length_insertSortBy {β : Type} (le : β → β → Bool) (l : List β) :
    (insertSortBy le l).length = l.length := by
  induction l with
  | nil => rfl
  | cons x xs ih => simp [insertSortBy, length_insertBy, ih]

theorem length_sortScores {α : Type} [LinearOrderedField α] (s : List (String × α)) :
    (sortScores s).length = s.length :=
  length_insertSortBy _ s

/-! ### Claim C5 -/

/-- Claim C5: for every `QuantTable` and every value `v` with
`min ≤ v ≤ max`, the quantize/dequantize round trip satisfies
`|dequantize (quantize v) - v| ≤ (max - min) / 255`. -/
theorem quanttable_roundtrip_bound {α : Type} [LinearOrderedField α] [FloorRing α]
    (t : QuantTable α) (v : α) (h1 : t.min ≤ v) (h2 : v ≤ t.max) :
    |t.dequantize (t.quantize v) - v| ≤ (t.max - t.min) / 255 := by
  by_cases hdeg : t.max ≤ t.min
  · have hv : v = t.min := le_antisymm (h2.trans hdeg) h1
    have hm : t.max = t.min := le_antisymm hdeg (h1.trans h2)
    simp [QuantTable.quantize, QuantTable.dequantize, hdeg, hv, hm]
  · have hd : 0 < t.max - t.min := by
      have := lt_of_not_le hdeg
      linarith
    have h0 : 0 ≤ (v - t.min) / (t.max - t.min) :=
      div_nonneg (by linarith) hd.le
    have hle1 : (v - t.min) / (t.max - t.min) ≤ 1 := by
      rw [div_le_one hd]
      linarith
    have hcl : clamp ((v - t.min) / (t.max - t.min)) 0 1
        = (v - t.min) / (t.max - t.min) := by
      unfold clamp
      rw [if_neg (not_lt.mpr h0), if_neg (not_lt.mpr hle1)]
    set x : α := (v - t.min) / (t.max - t.min) * 255 with hx
    have hx0 : 0 ≤ x := mul_nonneg h0 (by norm_num)
    have hr0 : (0 : ℤ) ≤ round x := by
      rw [round_eq]
      exact Int.floor_nonneg.mpr (by linarith)
    have hcast : (((round x).toNat : ℕ) : α) = ((round x : ℤ) : α) := by
      exact_mod_cast congrArg (Int.cast : ℤ → α) (Int.toNat_of_nonneg hr0)
    have hqd : t.quantize v = (round x).toNat := by
      unfold QuantTable.quantize
      rw [if_neg hdeg, hcl]
    have hdq : t.dequantize (t.quantize v)
        = t.min + ((round x : ℤ) : α) / 255 * (t.max - t.min) := by
      unfold QuantTable.dequantize
      rw [if_neg hdeg, hqd, hcast]
    have hrd : |((round x : ℤ) : α) - x| ≤ 1 / 2 := by
      rw [abs_sub_comm]
      exact abs_sub_round x
    have hveq : v = t.min + x / 255 * (t.max - t.min) := by
      rw [hx]
      field_simp
      ring
    rw [hdq]
    have key : t.min + ((round x : ℤ) : α) / 255 * (t.max - t.min) - v
        = (((round x : ℤ) : α) - x) / 255 * (t.max - t.min) := by
      rw [hveq]
      ring
    rw [key, abs_mul, abs_div, abs_of_pos hd, abs_of_pos (show (0 : α) < 255 by norm_num)]
    have step : |((round x : ℤ) : α) - x| / 255 * (t.max - t.min)
        ≤ 1 / 2 / 255 * (t.max - t.min) := by
      apply mul_le_mul_of_nonneg_right _ hd.le
      exact div_le_div_of_nonneg_right hrd (by norm_num)
    calc |((round x : ℤ) : α) - x| / 255 * (t.max - t.min)
        ≤ 1 / 2 / 255 * (t.max - t.min) := step
      _ ≤ (t.max - t.min) / 255 := by linarith

/-- Witness for C5 at the table `[0, 1]` and the value `1/3`. -/
theorem quanttable_roundtrip_bound_witness :
    |(QuantTable.mk (0 : ℚ) 1).dequantize
        ((QuantTable.mk (0 : ℚ) 1).quantize (1 / 3)) - 1 / 3| ≤ (1 - 0) / 255 :=
  quanttable_roundtrip_bound (QuantTable.mk 0 1) (1 / 3) (by norm_num) (by norm_num)

/-! ### Claim C6 -/

/-- Claim C6: on a query whose length differs from the index dimension
or whose L2 norm is zero, both `SearchIndex::top_k` and
`QuantizedIndex::top_k` return the empty list. -/
theorem invalid_query_empty {α : Type} [LinearOrderedField α] [FloorRing α]
    (sqrt : α → α) :
    (∀ (idx : SearchIndex α) (query : List α) (k : ℕ),
        query.length ≠ idx.dim ∨ norm sqrt query = 0 →
        idx.top_k sqrt query k = []) ∧
    (∀ (idx : QuantizedIndex α) (query : List α) (k : ℕ),
        query.length ≠ idx.dim ∨ norm sqrt query = 0 →
        idx.top_k sqrt query k = []) := by
  constructor
  · rintro idx query k (h | h)
    · simp [SearchIndex.top_k, h]
    · by_cases hl : query.length ≠ idx.dim
      · simp [SearchIndex.top_k, hl]
      · simp [SearchIndex.top_k, hl, h]
  · rintro idx query k (h | h)
    · simp [QuantizedIndex.top_k, h]
    · by_cases hl : query.length ≠ idx.dim
      · simp [QuantizedIndex.top_k, hl]
      · simp [QuantizedIndex.top_k, hl, h]

/-- Witness for C6: a 3-component query against a 1-dimensional float
index yields the empty result. -/
theorem invalid_query_empty_witness :
    SearchIndex.top_k modelSqrt (SearchIndex.mk ["a"] [[1]] 1) [(1 : ℚ), 2, 3] 5 = [] :=
  (invalid_query_empty modelSqrt).1 (SearchIndex.mk ["a"] [[1]] 1) [1, 2, 3] 5
    (Or.inl (by decide))

/-! ### Claim C7 -/

/-- Claim C7: on a query of matching dimension and nonzero norm, the
float index's `top_k` returns exactly `min k |dataset|` results. -/
theorem float_topk_length {α : Type} [LinearOrderedField α] (sqrt : α → α)
    (dataset : List (Embedding α)) (query : List α) (k : ℕ)
    (hdim : query.length = (SearchIndex.from_dataset sqrt dataset).dim)
    (hq : norm sqrt query ≠ 0) :
    ((SearchIndex.from_dataset sqrt dataset).top_k sqrt query k).length
      = min k dataset.length := by
  simp [SearchIndex.top_k, hdim, hq, List.length_take, length_sortScores,
    SearchIndex.raw_scores, List.length_zipWith, SearchIndex.from_dataset,
    List.length_map]

unseal Rat.add Rat.mul Rat.inv Rat.sub in
/-- Witness for C7 on a one-record dataset with `k = 2`. -/
theorem float_topk_length_witness :
    ((SearchIndex.from_dataset modelSqrt [⟨"a", [(1 : ℚ)]⟩]).top_k modelSqrt
        [(1 : ℚ)] 2).length = min 2 1 :=
  float_topk_length modelSqrt [⟨"a", [1]⟩] [1] 2 (by decide) (by decide)

theorem dot_replicate_zero {α : Type} [LinearOrderedField α] :
    ∀ (n : ℕ) (w : List α), dot (List.replicate n (0 : α)) w = 0 := by
  intro n
  induction n with
  | zero => intro w; simp [dot]
  | succ m ih =>
    intro w
    cases w with
    | nil => simp [dot]
    | cons y ys => simp [dot, List.replicate_succ] at ih ⊢; simpa [dot] using ih ys

theorem dot_map_div {α : Type} [LinearOrderedField α] (n : α) :
    ∀ (v w : List α), dot (v.map (fun x => x / n)) w = dot v w / n := by
  intro v
  induction v with
  | nil => intro w; simp [dot]
  | cons x xs ih =>
    intro w
    cases w with
    | nil => simp [dot]
    | cons y ys =>
      simp only [List.map_cons, dot, List.zipWith_cons_cons, List.sum_cons]
      have hx : x / n * y = x * y / n := div_mul_eq_mul_div x n y
      have := ih ys
      simp only [dot] at this
      rw [hx, this, div_add_div_same]

theorem zipWith_congr_mem {γ δ ε : Type} (f g : γ → δ → ε) :
    ∀ (l1 : List γ) (l2 : List δ),
      (∀ a ∈ l1, ∀ b ∈ l2, f a b = g a b) →
      List.zipWith f l1 l2 = List.zipWith g l1 l2 := by
  intro l1
  induction l1 with
  | nil => intro l2 _; simp
  | cons a as ih =>
    intro l2 h
    cases l2 with
    | nil => simp
    | cons b bs =>
      simp only [List.zipWith_cons_cons]
      rw [h a (List.mem_cons_self a as) b (List.mem_cons_self b bs),
        ih bs (fun x hx y hy =>
          h x (List.mem_cons_of_mem a hx) y (List.mem_cons_of_mem b hy))]

/-! ### Claim C2 -/

unseal Rat.add Rat.mul Rat.inv Rat.sub in
/-- Counterexample to C2 as stated: the float index over a dataset
containing the zero-norm embedding `("z", [0])`, queried with the
matching-dimension nonzero query `[1]`, assigns that embedding the score
`0`, not `-1` (the zero-norm vector is stored as an all-zero row, whose
dot product with the normalized query is `0`). -/
theorem zero_norm_row_scores_counterexample :
    SearchIndex.top_k modelSqrt
        (SearchIndex.from_dataset modelSqrt [⟨"z", [(0 : ℚ)]⟩]) [(1 : ℚ)] 1
      = [("z", 0)] ∧ ((0 : ℚ) ≠ -1) := by decide

/-- Claim C2 (amended): in the quantized index's on-the-fly mode
(`normalized_cache = none`, as built by `from_dataset`), the scoring
step of `top_k` assigns score `-1` to every row whose dequantized vector
has zero L2 norm; the float index instead stores a zero-norm embedding
as an all-zero row, which the scoring step of its `top_k` assigns score
`0`. -/
theorem zero_norm_row_scores {α : Type} [LinearOrderedField α] [FloorRing α]
    (sqrt : α → α) :
    (∀ (idx : QuantizedIndex α), idx.normalized_cache = none →
      ∀ (qnormed : List α) (i : ℕ) (id : String) (qv : List ℕ),
        idx.qvecs[i]? = some qv → idx.ids[i]? = some id →
        norm sqrt (idx.dequantize_vec qv) = 0 →
        (idx.raw_scores sqrt qnormed)[i]? = some (id, -1)) ∧
    (∀ (dataset : List (Embedding α)) (qnormed : List α) (i : ℕ)
        (e : Embedding α),
        dataset[i]? = some e → norm sqrt e.vector = 0 →
        ((SearchIndex.from_dataset sqrt dataset).raw_scores qnormed)[i]?
          = some (e.id, 0)) := by
  constructor
  · intro idx hcache qnormed i id qv hqv hid hnorm
    simp only [QuantizedIndex.raw_scores, hcache, List.getElem?_zipWith, hqv, hid,
      hnorm, if_pos]
  · intro dataset qnormed i e he hnorm
    simp only [SearchIndex.raw_scores, SearchIndex.from_dataset,
      List.getElem?_zipWith, List.getElem?_map, he, Option.map_some']
    simp [hnorm, dot_replicate_zero]

unseal Rat.add Rat.mul Rat.inv Rat.sub in
/-- Witness for the amended C2 on a one-row quantized index whose single
row dequantizes to the zero vector. -/
theorem zero_norm_row_scores_witness :
    ((QuantizedIndex.mk ["z"] [QuantTable.mk (0 : ℚ) 0] [[0]] 1 none).raw_scores
        modelSqrt [1])[0]? = some ("z", (-1 : ℚ)) :=
  (zero_norm_row_scores modelSqrt).1
    (QuantizedIndex.mk ["z"] [QuantTable.mk 0 0] [[0]] 1 none) rfl [1] 0 "z" [0]
    (by decide) (by decide) (by decide)

/-! ### Claim C3 -/

unseal Rat.add Rat.mul Rat.inv Rat.sub in
/-- Counterexample to C3 as stated: over the dataset `[("z", [0])]`,
`QuantizedIndex::top_k` on the query `[1]` returns score `-1` before
`precompute_normalized` and score `0` after it — a difference of `1`,
far above the 1e-5 tolerance. -/
theorem precompute_topk_eq_counterexample :
    QuantizedIndex.from_dataset [⟨"z", [(0 : ℚ)]⟩]
      = some (QuantizedIndex.mk ["z"] [QuantTable.mk 0 0] [[0]] 1 none) ∧
    QuantizedIndex.top_k modelSqrt
        (QuantizedIndex.mk ["z"] [QuantTable.mk (0 : ℚ) 0] [[0]] 1 none) [1] 1
      = [("z", -1)] ∧
    QuantizedIndex.top_k modelSqrt
        ((QuantizedIndex.mk ["z"] [QuantTable.mk (0 : ℚ) 0] [[0]] 1
            none).precompute_normalized modelSqrt) [1] 1
      = [("z", 0)] ∧
    ¬ (|(-1 : ℚ) - 0| ≤ 1 / 100000) := by decide

/-- Claim C3 (amended): over any dataset whose rows all dequantize to
vectors of nonzero L2 norm, `QuantizedIndex::top_k` returns literally
identical `(id, score)` sequences before and after
`precompute_normalized` (exactly, not merely within 1e-5): the cached
score `dot(v / n, q)` with `n = norm v` coincides with the on-the-fly
score `dot(v, q) / n`. -/
theorem precompute_topk_eq {α : Type} [LinearOrderedField α] [FloorRing α]
    (sqrt : α → α) (dataset : List (Embedding α)) (idx : QuantizedIndex α)
    (hbuild : QuantizedIndex.from_dataset dataset = some idx)
    (hrows : ∀ qv ∈ idx.qvecs, norm sqrt (idx.dequantize_vec qv) ≠ 0)
    (query : List α) (k : ℕ) :
    (idx.precompute_normalized sqrt).top_k sqrt query k
      = idx.top_k sqrt query k := by
  have hcache : idx.normalized_cache = none := by
    obtain ⟨p, -, h2⟩ := Option.map_eq_some'.mp hbuild
    rw [← h2]
  have hscores : ∀ qn, (idx.precompute_normalized sqrt).raw_scores sqrt qn
      = idx.raw_scores sqrt qn := by
    intro qn
    simp only [QuantizedIndex.raw_scores, QuantizedIndex.precompute_normalized,
      hcache]
    rw [List.zipWith_map_left]
    apply zipWith_congr_mem
    intro qv hqv id _
    have hn := hrows qv hqv
    simp only [if_neg hn, dot_map_div]
  have hdim : (idx.precompute_normalized sqrt).dim = idx.dim := rfl
  unfold QuantizedIndex.top_k
  rw [hdim]
  by_cases hl : query.length ≠ idx.dim
  · simp [hl]
  · simp only [hl, if_false]
    by_cases hq : norm sqrt query = 0
    · simp [hq]
    · simp only [hq, if_false, hscores]

unseal Rat.add Rat.mul Rat.inv Rat.sub in
/-- Witness for the amended C3 on a one-record dataset whose single row
dequantizes to the nonzero vector `[1]`. -/
theorem precompute_topk_eq_witness :
    ((QuantizedIndex.mk ["a"] [QuantTable.mk (1 : ℚ) 1] [[0]] 1
        none).precompute_normalized modelSqrt).top_k modelSqrt [1] 1
      = (QuantizedIndex.mk ["a"] [QuantTable.mk (1 : ℚ) 1] [[0]] 1
          none).top_k modelSqrt [1] 1 :=
  precompute_topk_eq modelSqrt [⟨"a", [1]⟩]
    (QuantizedIndex.mk ["a"] [QuantTable.mk (1 : ℚ) 1] [[0]] 1 none)
    (by decide) (by decide) [1] 1

/-! ### Scan machinery for C8 and C10 -/

theorem length_updRow {α : Type} [LinearOrderedField α]
    (f : Option α → α → Option α) :
    ∀ (v : List α) (ms : List (Option α)), (updRow f ms v).length = ms.length := by
  intro v
  induction v with
  | nil => intro ms; cases ms <;> simp [updRow]
  | cons x xs ih =>
    intro ms
    cases ms with
    | nil => simp [updRow]
    | cons m ms2 => simp [updRow, ih]

theorem getElem?_updRow {α : Type} [LinearOrderedField α]
    (f : Option α → α → Option α) :
    ∀ (v : List α) (ms : List (Option α)) (i : ℕ),
      (updRow f ms v)[i]? =
        match ms[i]?, v[i]? with
        | some m, some x => some (f m x)
        | some m, none => some m
        | none, _ => none := by
  intro v
  induction v with
  | nil =>
    intro ms i
    cases h : ms[i]? <;> simp [updRow, h]
  | cons x xs ih =>
    intro ms i
    cases ms with
    | nil => simp [updRow]
    | cons m ms2 =>
      cases i with
      | zero => simp [updRow]
      | succ j => simpa [updRow] using ih ms2 j

theorem scanRows_uniform {α : Type} [LinearOrderedField α] (dim : ℕ) :
    ∀ (rows : List (List α)) (mins maxs : List (Option α)),
      (∀ v ∈ rows, v.length = dim) →
      mins.length = dim → maxs.length = dim →
      ∃ mins2 maxs2,
        scanRows dim (mins, maxs) rows = some (mins2, maxs2) ∧
        mins2.length = dim ∧ maxs2.length = dim ∧
        ∀ i < dim,
          mins2.getD i none
              = rows.foldl (fun acc v => updMin acc (v.getD i 0)) (mins.getD i none) ∧
          maxs2.getD i none
              = rows.foldl (fun acc v => updMax acc (v.getD i 0)) (maxs.getD i none) := by
  intro rows
  induction rows with
  | nil =>
    intro mins maxs _ hm hM
    exact ⟨mins, maxs, rfl, hm, hM, fun i _ => ⟨rfl, rfl⟩⟩
  | cons v rest ih =>
    intro mins maxs huni hm hM
    have hv : v.length = dim := huni v (List.mem_cons_self v rest)
    have hrest : ∀ w ∈ rest, w.length = dim :=
      fun w hw => huni w (List.mem_cons_of_mem v hw)
    have hm2 : (updRow updMin mins v).length = dim := by
      rw [length_updRow]; exact hm
    have hM2 : (updRow updMax maxs v).length = dim := by
      rw [length_updRow]; exact hM
    obtain ⟨mins2, maxs2, heq, hl1, hl2, hpt⟩ :=
      ih (updRow updMin mins v) (updRow updMax maxs v) hrest hm2 hM2
    refine ⟨mins2, maxs2, ?_, hl1, hl2, ?_⟩
    · simp only [scanRows, hv, le_refl, if_pos]
      exact heq
    · intro i hi
      have hvi : v[i]? = some (v.getD i 0) := by
        rw [List.getD_eq_getElem?_getD]
        cases h : v[i]? with
        | none =>
          rw [List.getElem?_eq_none_iff] at h
          omega
        | some y => rfl
      have hmi : mins[i]? = some (mins.getD i none) := by
        rw [List.getD_eq_getElem?_getD]
        cases h : mins[i]? with
        | none =>
          rw [List.getElem?_eq_none_iff] at h
          omega
        | some y => rfl
      have hMi : maxs[i]? = some (maxs.getD i none) := by
        rw [List.getD_eq_getElem?_getD]
        cases h : maxs[i]? with
        | none =>
          rw [List.getElem?_eq_none_iff] at h
          omega
        | some y => rfl
      have hminrow : (updRow updMin mins v).getD i none
          = updMin (mins.getD i none) (v.getD i 0) := by
        rw [List.getD_eq_getElem?_getD, getElem?_updRow, hmi, hvi]
        rfl
      have hmaxrow : (updRow updMax maxs v).getD i none
          = updMax (maxs.getD i none) (v.getD i 0) := by
        rw [List.getD_eq_getElem?_getD, getElem?_updRow, hMi, hvi]
        rfl
      obtain ⟨h1, h2⟩ := hpt i hi
      constructor
      · rw [List.foldl_cons, ← hminrow]
        exact h1
      · rw [List.foldl_cons, ← hmaxrow]
        exact h2

theorem foldl_updMin_min {α : Type} [LinearOrderedField α] :
    ∀ (col : List α) (m0 : α),
      ∃ m, List.foldl updMin (some m0) col = some m ∧
        m ∈ m0 :: col ∧ ∀ x ∈ m0 :: col, m ≤ x := by
  intro col
  induction col with
  | nil =>
    intro m0
    refine ⟨m0, rfl, List.mem_cons_self m0 [], ?_⟩
    intro x hx
    rw [List.mem_singleton] at hx
    exact le_of_eq hx.symm
  | cons c cs ih =>
    intro m0
    by_cases h : c < m0
    · obtain ⟨m, hfold, hmem, hbound⟩ := ih c
      refine ⟨m, ?_, List.mem_cons_of_mem m0 hmem, ?_⟩
      · simpa [List.foldl_cons, updMin, h] using hfold
      · intro x hx
        rcases List.mem_cons.mp hx with h1 | h1
        · have hc : m ≤ c := hbound c (List.mem_cons_self c cs)
          rw [h1]
          exact le_of_lt (lt_of_le_of_lt hc h)
        · exact hbound x h1
    · obtain ⟨m, hfold, hmem, hbound⟩ := ih m0
      refine ⟨m, ?_, ?_, ?_⟩
      · simpa [List.foldl_cons, updMin, h] using hfold
      · rcases List.mem_cons.mp hmem with h1 | h1
        · rw [h1]
          exact List.mem_cons_self m0 (c :: cs)
        · exact List.mem_cons_of_mem m0 (List.mem_cons_of_mem c h1)
      · intro x hx
        rcases List.mem_cons.mp hx with h1 | h1
        · rw [h1]
          exact hbound m0 (List.mem_cons_self m0 cs)
        · rcases List.mem_cons.mp h1 with h2 | h2
          · have hm0 : m ≤ m0 := hbound m0 (List.mem_cons_self m0 cs)
            rw [h2]
            exact le_trans hm0 (le_of_not_lt h)
          · exact hbound x (List.mem_cons_of_mem m0 h2)

theorem foldl_updMax_max {α : Type} [LinearOrderedField α] :
    ∀ (col : List α) (m0 : α),
      ∃ m, List.foldl updMax (some m0) col = some m ∧
        m ∈ m0 :: col ∧ ∀ x ∈ m0 :: col, x ≤ m := by
  intro col
  induction col with
  | nil =>
    intro m0
    refine ⟨m0, rfl, List.mem_cons_self m0 [], ?_⟩
    intro x hx
    rw [List.mem_singleton] at hx
    exact le_of_eq hx
  | cons c cs ih =>
    intro m0
    by_cases h : m0 < c
    · obtain ⟨m, hfold, hmem, hbound⟩ := ih c
      refine ⟨m, ?_, List.mem_cons_of_mem m0 hmem, ?_⟩
      · simpa [List.foldl_cons, updMax, h] using hfold
      · intro x hx
        rcases List.mem_cons.mp hx with h1 | h1
        · have hc : c ≤ m := hbound c (List.mem_cons_self c cs)
          rw [h1]
          exact le_of_lt (lt_of_lt_of_le h hc)
        · exact hbound x h1
    · obtain ⟨m, hfold, hmem, hbound⟩ := ih m0
      refine ⟨m, ?_, ?_, ?_⟩
      · simpa [List.foldl_cons, updMax, h] using hfold
      · rcases List.mem_cons.mp hmem with h1 | h1
        · rw [h1]
          exact List.mem_cons_self m0 (c :: cs)
        · exact List.mem_cons_of_mem m0 (List.mem_cons_of_mem c h1)
      · intro x hx
        rcases List.mem_cons.mp hx with h1 | h1
        · rw [h1]
          exact hbound m0 (List.mem_cons_self m0 cs)
        · rcases List.mem_cons.mp h1 with h2 | h2
          · have hm0 : m0 ≤ m := hbound m0 (List.mem_cons_self m0 cs)
            rw [h2]
            exact le_trans (le_of_not_lt h) hm0
          · exact hbound x (List.mem_cons_of_mem m0 h2)

theorem qrowAux_isSome {α : Type} [LinearOrderedField α] [FloorRing α]
    (tables : List (QuantTable α)) :
    ∀ (v : List α) (i : ℕ), i + v.length ≤ tables.length →
      (qrowAux tables i v).isSome = true := by
  intro v
  induction v with
  | nil => intro i _; simp [qrowAux]
  | cons x xs ih =>
    intro i hle
    have hi : i < tables.length := by simp at hle; omega
    cases h : tables[i]? with
    | none =>
      rw [List.getElem?_eq_none_iff] at h
      omega
    | some t =>
      have hxs := ih (i + 1) (by simp at hle ⊢; omega)
      cases h2 : qrowAux tables (i + 1) xs with
      | none => rw [h2] at hxs; simp at hxs
      | some r => simp [qrowAux, List.get?_eq_getElem?, h, h2]

theorem rowsQuantized_isSome {α : Type} [LinearOrderedField α] [FloorRing α]
    (tables : List (QuantTable α)) :
    ∀ (rows : List (List α)), (∀ v ∈ rows, (qrow tables v).isSome = true) →
      (rowsQuantized tables rows).isSome = true := by
  intro rows
  induction rows with
  | nil => intro _; rfl
  | cons v rest ih =>
    intro h
    have hv := h v (List.mem_cons_self v rest)
    have hrest := ih (fun w hw => h w (List.mem_cons_of_mem v hw))
    cases hq : qrow tables v with
    | none => rw [hq] at hv; simp at hv
    | some q =>
      cases hqs : rowsQuantized tables rest with
      | none => rw [hqs] at hrest; simp at hrest
      | some qs => simp [rowsQuantized, hq, hqs]

theorem getD_replicate_none {α : Type} (n i : ℕ) :
    (List.replicate n (none : Option α)).getD i none = none := by
  rw [List.getD_eq_getElem?_getD, List.getElem?_replicate]
  split <;> rfl

/-! ### Claim C8 -/

/-- Claim C8: for a nonempty input whose rows all have the length of the
first row, `quantize_dataset` succeeds with one table per dimension, and
each table's `min` and `max` are the observed minimum and maximum of
that coordinate across all rows (a member of the column and a
lower/upper bound for it); the empty input yields the empty pair. -/
theorem quantize_dataset_extrema {α : Type} [LinearOrderedField α] [FloorRing α] :
    quantize_dataset ([] : List (List α)) = some ([], []) ∧
    ∀ (v0 : List α) (rest : List (List α)) (tables : List (QuantTable α))
        (qvecs : List (List ℕ)),
      (∀ v ∈ v0 :: rest, v.length = v0.length) →
      quantize_dataset (v0 :: rest) = some (tables, qvecs) →
      tables.length = v0.length ∧
      ∀ (i : ℕ) (tbl : QuantTable α), tables[i]? = some tbl →
        (tbl.min ∈ (v0 :: rest).map (fun v => v.getD i 0) ∧
          ∀ x ∈ (v0 :: rest).map (fun v => v.getD i 0), tbl.min ≤ x) ∧
        (tbl.max ∈ (v0 :: rest).map (fun v => v.getD i 0) ∧
          ∀ x ∈ (v0 :: rest).map (fun v => v.getD i 0), x ≤ tbl.max) := by
  refine ⟨rfl, ?_⟩
  intro v0 rest tables qvecs huni heq
  obtain ⟨mins2, maxs2, hscan, hl1, hl2, hpt⟩ :=
    scanRows_uniform v0.length (v0 :: rest)
      (List.replicate v0.length none) (List.replicate v0.length none)
      huni (List.length_replicate _ _) (List.length_replicate _ _)
  simp only [quantize_dataset] at heq
  rw [hscan] at heq
  simp only [Option.some_bind] at heq
  obtain ⟨qv, hrq, heq2⟩ := Option.map_eq_some'.mp heq
  simp only [Prod.mk.injEq] at heq2
  obtain ⟨htab, -⟩ := heq2
  subst htab
  constructor
  · simp [List.length_zipWith, hl1, hl2]
  · intro i tbl htbl
    have hi : i < v0.length := by
      by_contra hcon
      rw [List.getElem?_eq_none_iff.mpr (by simp [List.length_zipWith, hl1, hl2]; omega)]
        at htbl
      exact absurd htbl (by simp)
    rw [List.getElem?_zipWith] at htbl
    cases hm2 : mins2[i]? with
    | none =>
      rw [hm2] at htbl
      exact absurd htbl (by simp)
    | some mOpt =>
      cases hM2 : maxs2[i]? with
      | none =>
        rw [hm2, hM2] at htbl
        exact absurd htbl (by simp)
      | some MOpt =>
        rw [hm2, hM2] at htbl
        simp only [Option.some.injEq] at htbl
        obtain ⟨hmin2, hmax2⟩ := hpt i hi
        have hget1 : mins2.getD i none = mOpt := by
          rw [List.getD_eq_getElem?_getD, hm2]
          rfl
        have hget2 : maxs2.getD i none = MOpt := by
          rw [List.getD_eq_getElem?_getD, hM2]
          rfl
        rw [hget1, getD_replicate_none] at hmin2
        rw [hget2, getD_replicate_none] at hmax2
        have hfold1 : mOpt = ((v0 :: rest).map (fun v => v.getD i 0)).foldl updMin none := by
          rw [List.foldl_map]
          exact hmin2
        have hfold2 : MOpt = ((v0 :: rest).map (fun v => v.getD i 0)).foldl updMax none := by
          rw [List.foldl_map]
          exact hmax2
        simp only [List.map_cons, List.foldl_cons] at hfold1 hfold2
        obtain ⟨mm, hmmf, hmmmem, hmmb⟩ := foldl_updMin_min (rest.map (fun v => v.getD i 0)) (v0.getD i 0)
        obtain ⟨MM, hMMf, hMMmem, hMMb⟩ := foldl_updMax_max (rest.map (fun v => v.getD i 0)) (v0.getD i 0)
        have hmO : mOpt = some mm := by
          rw [hfold1]
          simpa [updMin] using hmmf
        have hMO : MOpt = some MM := by
          rw [hfold2]
          simpa [updMax] using hMMf
        have htmin : tbl.min = mm := by
          rw [← htbl, hmO]
          rfl
        have htmax : tbl.max = MM := by
          rw [← htbl, hMO]
          rfl
        rw [htmin, htmax, List.map_cons]
        exact ⟨⟨hmmmem, hmmb⟩, hMMmem, hMMb⟩

unseal Rat.add Rat.mul Rat.inv Rat.sub in
/-- Witness for C8 on the dataset `[[1, 5], [3, 2]]`: two tables come
back, and the first table's `min` is the observed minimum of column 0. -/
theorem quantize_dataset_extrema_witness :
    ([QuantTable.mk (1 : ℚ) 3, QuantTable.mk (2 : ℚ) 5].length = 2) ∧
    ((QuantTable.mk (1 : ℚ) 3).min ∈ [[(1 : ℚ), 5], [3, 2]].map (fun v => v.getD 0 0)) := by
  have h := (quantize_dataset_extrema (α := ℚ)).2 [1, 5] [[3, 2]]
    [QuantTable.mk 1 3, QuantTable.mk 2 5] [[0, 255], [255, 0]]
    (by decide) (by decide)
  exact ⟨h.1, (h.2 0 (QuantTable.mk 1 3) (by decide)).1.1⟩

/-! ### Claim C10 -/

/-- Claim C10: on a nonempty input whose rows all have exactly the
length of the first row, `quantize_dataset` (and hence
`QuantizedIndex::from_dataset`) performs only in-bounds indexing — the
panic branch of the embedding is unreachable; and the precondition is
necessary: the input `[[1], [2, 3]]`, whose second row is longer than
the first, reaches the out-of-bounds branch. -/
theorem quantize_dataset_inbounds {α : Type} [LinearOrderedField α] [FloorRing α] :
    (∀ (v0 : List α) (rest : List (List α)),
        (∀ v ∈ v0 :: rest, v.length = v0.length) →
        (quantize_dataset (v0 :: rest)).isSome = true) ∧
    (∀ (dataset : List (Embedding α)) (e0 : Embedding α)
        (drest : List (Embedding α)),
        dataset = e0 :: drest →
        (∀ e ∈ dataset, e.vector.length = e0.vector.length) →
        (QuantizedIndex.from_dataset dataset).isSome = true) ∧
    quantize_dataset [[(1 : ℚ)], [2, 3]] = none := by
  have main : ∀ (v0 : List α) (rest : List (List α)),
      (∀ v ∈ v0 :: rest, v.length = v0.length) →
      (quantize_dataset (v0 :: rest)).isSome = true := by
    intro v0 rest huni
    obtain ⟨mins2, maxs2, hscan, hl1, hl2, -⟩ :=
      scanRows_uniform v0.length (v0 :: rest)
        (List.replicate v0.length none) (List.replicate v0.length none)
        huni (List.length_replicate _ _) (List.length_replicate _ _)
    simp only [quantize_dataset]
    rw [hscan]
    simp only [Option.some_bind]
    have htl : (List.zipWith (fun m M => QuantTable.mk (Option.getD m 0) (Option.getD M 0))
        mins2 maxs2).length = v0.length := by
      simp [List.length_zipWith, hl1, hl2]
    have hq : ∀ v ∈ v0 :: rest,
        (qrow (List.zipWith (fun m M => QuantTable.mk (Option.getD m 0) (Option.getD M 0))
          mins2 maxs2) v).isSome = true := by
      intro v hv
      apply qrowAux_isSome
      rw [htl]
      simp [huni v hv]
    have hall := rowsQuantized_isSome _ (v0 :: rest) hq
    cases hrq : rowsQuantized
        (List.zipWith (fun m M => QuantTable.mk (Option.getD m 0) (Option.getD M 0))
          mins2 maxs2) (v0 :: rest) with
    | none =>
      rw [hrq] at hall
      simp at hall
    | some qs => rfl
  refine ⟨main, ?_, by decide⟩
  intro dataset e0 drest hshape huni
  subst hshape
  have h0 := main e0.vector (drest.map (fun e => e.vector)) (by
    intro v hv
    rcases List.mem_cons.mp hv with h1 | h1
    · rw [h1]
    · obtain ⟨e, he, rfl⟩ := List.mem_map.mp h1
      exact huni e (List.mem_cons_of_mem e0 he))
  have h : (quantize_dataset ((e0 :: drest).map (fun e => e.vector))).isSome = true := by
    rw [List.map_cons]
    exact h0
  simp only [QuantizedIndex.from_dataset]
  cases hqd : quantize_dataset ((e0 :: drest).map (fun e => e.vector)) with
  | none =>
    rw [hqd] at h
    simp at h
  | some p => rfl

/-- Witness for C10 on the uniform input `[[1, 2], [3, 4]]`. -/
theorem quantize_dataset_inbounds_witness :
    (quantize_dataset [[(1 : ℚ), 2], [3, 4]]).isSome = true :=
  (quantize_dataset_inbounds (α := ℚ)).1 [1, 2] [[3, 4]] (by decide)

/-! ### Claim C1 -/

/-- Claim C1 is contradicted by the code: `compress_stream` with
`quantize = false` writes the STREAM magic followed by the framed
records (first conjunct: the output begins with the magic), but
`EmbeddingDataset::load` performs no magic detection — it deserializes
the whole file as one bincode dataset, reading the first eight magic
bytes `"VECTRO+S"` as a gigantic embedding count, and fails. The round
trip therefore yields no dataset at all, in either order the racing
workers may have written the two frames. The records are the parses of
the two JSONL lines with ids `one`, `two` and vectors `[1.0, 0.0]`,
`[0.0, 1.0]` (`0x3F800000` is the bit pattern of `1.0f32`). -/
theorem stream_load_roundtrip_fails :
    (compress_stream_bytes
        [⟨[111, 110, 101], [0x3F800000, 0]⟩,
         ⟨[116, 119, 111], [0, 0x3F800000]⟩]).take 15 = streamMagic ∧
    load (compress_stream_bytes
        [⟨[111, 110, 101], [0x3F800000, 0]⟩,
         ⟨[116, 119, 111], [0, 0x3F800000]⟩]) = none ∧
    load (compress_stream_bytes
        [⟨[116, 119, 111], [0, 0x3F800000]⟩,
         ⟨[111, 110, 101], [0x3F800000, 0]⟩]) = none := by
  decide

/-! ### Claim C4 -/

theorem writerLoop_persisted (writeOk : ℕ → Bool) :
    ∀ (frames : List (List ℕ)) (op : ℕ) (persisted : List ℕ) (written : ℕ),
      (writerLoop writeOk op persisted written frames).2.2 = false →
      ∃ j, j ≤ frames.length ∧
        (writerLoop writeOk op persisted written frames).2.1 = written + j ∧
        ((writerLoop writeOk op persisted written frames).1
            = persisted ++ framesConcat (frames.take j) ∨
         (writerLoop writeOk op persisted written frames).1
            = persisted ++ framesConcat (frames.take j)
                ++ u32le ((frames.getD j []).length)) := by
  intro frames
  induction frames with
  | nil =>
    intro op persisted written _
    refine ⟨0, Nat.le_refl 0, ?_, Or.inl ?_⟩ <;> simp [writerLoop, framesConcat]
  | cons f rest ih =>
    intro op persisted written hfail
    by_cases h0 : writeOk op = true
    · by_cases h1 : writeOk (op + 1) = true
      · rw [show writerLoop writeOk op persisted written (f :: rest)
            = writerLoop writeOk (op + 2) (persisted ++ u32le f.length ++ f)
                (written + 1) rest by simp [writerLoop, h0, h1]] at hfail ⊢
        obtain ⟨j, hj, hcount, hdisj⟩ :=
          ih (op + 2) (persisted ++ u32le f.length ++ f) (written + 1) hfail
        refine ⟨j + 1, by simp; omega, by rw [hcount]; omega, ?_⟩
        rcases hdisj with hd | hd
        · refine Or.inl ?_
          rw [hd, List.take_succ_cons]
          simp [framesConcat, frameBytes, List.append_assoc]
        · refine Or.inr ?_
          rw [hd, List.take_succ_cons]
          simp [framesConcat, frameBytes, List.getD_cons_succ, List.append_assoc]
      · rw [show writerLoop writeOk op persisted written (f :: rest)
            = (persisted ++ u32le f.length, written, false) by
              simp [writerLoop, h0, h1]]
        exact ⟨0, Nat.zero_le _, by simp,
          Or.inr (by simp [framesConcat, List.getD_cons_zero])⟩
    · rw [show writerLoop writeOk op persisted written (f :: rest)
          = (persisted, written, false) by simp [writerLoop, h0]]
      exact ⟨0, Nat.zero_le _, by simp, Or.inl (by simp [framesConcat])⟩

/-- Counterexample to C4 as stated: with the fourth write syscall
failing, the writer thread persists only the magic and the first frame
and reports failure, yet the `compress_stream` tail returns
`Except.ok` with the parsed count — no error reaches the caller. -/
theorem writer_error_not_surfaced_counterexample :
    writer_thread (fun i => decide (i < 3)) [[7], [8]]
      = (streamMagic ++ [1, 0, 0, 0, 7], 1, false) ∧
    compress_finish false 2 = Except.ok 2 ∧
    (compress_finish false 2).isOk = true :=
  ⟨by decide, rfl, rfl⟩

/-- Claim C4 (amended): when a write syscall fails, the writer thread
aborts, so no frame at or after the failure point is persisted (the
output is at most the magic, the first `j` complete frames and possibly
one orphan length prefix, with exactly `j` frames counted as written);
but `compress_stream` discards the writer's join result and returns
`Ok(parsed)` — the failure is not surfaced to the caller. -/
theorem writer_error_not_surfaced (writeOk : ℕ → Bool) (frames : List (List ℕ))
    (parsed : ℕ)
    (hfail : (writer_thread writeOk frames).2.2 = false) :
    (∃ j, j ≤ frames.length ∧ (writer_thread writeOk frames).2.1 = j ∧
      ((writer_thread writeOk frames).1 = [] ∨
       (writer_thread writeOk frames).1
         = streamMagic ++ framesConcat (frames.take j) ∨
       (writer_thread writeOk frames).1
         = streamMagic ++ framesConcat (frames.take j)
             ++ u32le ((frames.getD j []).length))) ∧
    compress_finish (writer_thread writeOk frames).2.2 parsed
      = Except.ok parsed := by
  refine ⟨?_, rfl⟩
  by_cases h0 : writeOk 0 = true
  · rw [show writer_thread writeOk frames = writerLoop writeOk 1 streamMagic 0 frames
        by simp [writer_thread, h0]] at hfail ⊢
    obtain ⟨j, hj, hcount, hdisj⟩ := writerLoop_persisted writeOk frames 1 streamMagic 0 hfail
    refine ⟨j, hj, by omega, ?_⟩
    rcases hdisj with hd | hd
    · exact Or.inr (Or.inl hd)
    · exact Or.inr (Or.inr hd)
  · rw [show writer_thread writeOk frames = ([], 0, false)
        by simp [writer_thread, h0]]
    exact ⟨0, Nat.zero_le _, rfl, Or.inl rfl⟩

/-- Witness for the amended C4: the first frame write fails, the writer
reports failure, and the tail still returns `Ok 7`. -/
theorem writer_error_not_surfaced_witness :
    compress_finish (writer_thread (fun i => decide (i < 1)) [[5]]).2.2 7
      = Except.ok 7 :=
  (writer_error_not_surfaced (fun i => decide (i < 1)) [[5]] 7 (by decide)).2

/-! ### Claim C9 -/

/-- Counterexample to C9 as stated: the line `a,b` provides an id but no
numeric component (`b` does not parse as `f32`), yet the CSV fallback
accepts it — `compress_stream` counts it in `parsed` and emits the
record `("a", [])` with an empty vector. -/
theorem line_accept_counterexample :
    processLine ['a', ',', 'b'] = some ⟨"a", []⟩ := by
  decide

/-- Claim C9 (amended): a line is accepted (counted in `parsed`) iff,
after trimming, it is nonblank and either the JSON shape check passes —
a JSON value with a string `id` field and an array `vector` field, the
numeric elements being kept but possibly numbering zero — or, the JSON
attempt failing, the line splits into at least two comma-separated
fields (the CSV fallback likewise requires no numeric component). -/
theorem line_accept_iff (line : List Char) :
    (processLine line).isSome = true ↔
      (trimChars line ≠ [] ∧
        (jsonShapeOk (trimChars line) = true ∨
          2 ≤ (splitComma (trimChars line)).length)) := by
  unfold processLine jsonShapeOk
  by_cases ht : trimChars line = []
  · simp [ht]
  · rw [if_neg ht]
    cases hfs : from_str (trimChars line) with
    | none =>
      simp only [hfs, Option.none_bind]
      by_cases hp : 2 ≤ (splitComma (trimChars line)).length <;> simp [hp, ht]
    | some v =>
      simp only [hfs, Option.some_bind]
      cases hidv : (jsonGet v ['i', 'd']).bind asStr with
      | none =>
        simp only [hidv, Option.none_bind]
        by_cases hp : 2 ≤ (splitComma (trimChars line)).length <;> simp [hp, ht]
      | some idChars =>
        simp only [hidv, Option.some_bind]
        cases harr : (jsonGet v ['v', 'e', 'c', 't', 'o', 'r']).bind asArr with
        | none =>
          simp only [harr, Option.map_none']
          by_cases hp : 2 ≤ (splitComma (trimChars line)).length <;> simp [hp, ht]
        | some arr =>
          simp only [harr, Option.map_some']
          simp [ht]

end Vectro
